import Mathlib

/-!
Shallow embedding of the `pkg/inmemorydb` persistent key-value store of the
todo repository and proofs about it.

Go byte strings are modelled as `List Nat` with every element below 256.
The file content on disk, the bufio writer buffer and every log line are
likewise `List Nat`. Fallible operations return `Except DbError` or pair the
new state with `Option DbError`, mirroring the Go `(T, error)` convention.
IO failures (a write into the bufio writer failing, Flush failing, the fd
close failing) are injected through explicit boolean parameters, since the
Go code only branches on whether those calls returned an error.
-/

namespace InMemoryDB

/-- Standard base64 alphabet: maps a sextet (below 64) to its ASCII code,
as in Go encoding/base64 StdEncoding. -/
def b64char (n : Nat) : Nat :=
  if n < 26 then 65 + n
  else if n < 52 then 97 + (n - 26)
  else if n < 62 then 48 + (n - 52)
  else if n = 62 then 43
  else 47

/-- Inverse of the standard base64 alphabet: ASCII code to sextet, failing
on characters outside the alphabet (as the Go decoder does). -/
def b64val (c : Nat) : Option Nat :=
  if 65 ≤ c ∧ c ≤ 90 then some (c - 65)
  else if 97 ≤ c ∧ c ≤ 122 then some (c - 97 + 26)
  else if 48 ≤ c ∧ c ≤ 57 then some (c - 48 + 52)
  else if c = 43 then some 62
  else if c = 47 then some 63
  else none

/-- Go base64.StdEncoding.EncodeToString: three input bytes become four
alphabet characters; a final group of one or two bytes is padded with
the code 61 (the = character). -/
def base64encode : List Nat → List Nat
  | [] => []
  | [a] => [b64char (a / 4), b64char (a % 4 * 16), 61, 61]
  | [a, b] => [b64char (a / 4), b64char (a % 4 * 16 + b / 16), b64char (b % 16 * 4), 61]
  | a :: b :: c :: rest =>
      b64char (a / 4) :: b64char (a % 4 * 16 + b / 16) ::
      b64char (b % 16 * 4 + c / 64) :: b64char (c % 64) ::
      base64encode rest

/-- Core of Go base64.StdEncoding decoding: consumes quanta of four
characters; padding (code 61) is legal only at the end, in the patterns
xx== and xxx=; a quantum shorter than four characters is an error. Like the
Go decoder, nonzero trailing bits in a padded final quantum are accepted. -/
def base64decodeCore : List Nat → Option (List Nat)
  | [] => some []
  | c1 :: c2 :: c3 :: c4 :: rest =>
      match b64val c1, b64val c2 with
      | some a, some b =>
        if c3 = 61 then
          if c4 = 61 ∧ rest = [] then some [a * 4 + b / 16] else none
        else
          match b64val c3 with
          | some c =>
            if c4 = 61 then
              if rest = [] then some [a * 4 + b / 16, b % 16 * 16 + c / 4] else none
            else
              match b64val c4, base64decodeCore rest with
              | some d, some tl =>
                  some ((a * 4 + b / 16) :: (b % 16 * 16 + c / 4) :: (c % 4 * 64 + d) :: tl)
              | _, _ => none
          | none => none
      | _, _ => none
  | _ => none

/-- Go base64.StdEncoding.DecodeString: newline characters (codes 10 and 13)
are ignored, then the input is decoded in quanta of four. -/
def base64decode (l : List Nat) : Option (List Nat) :=
  base64decodeCore (l.filter (fun c => c ≠ 10 ∧ c ≠ 13))

/-- Go strings.Split on a one-byte separator: the list of (possibly empty)
chunks between occurrences of the separator. Splitting the empty string
yields one empty chunk, as in Go. -/
def splitOn (sep : Nat) : List Nat → List (List Nat)
  | [] => [[]]
  | c :: rest =>
    match splitOn sep rest with
    | [] => [[]]
    | h :: t => if c = sep then [] :: h :: t else (c :: h) :: t

/-- Drops a final empty chunk, turning strings.Split output into the lines a
bufio.Scanner yields: a trailing newline does not produce an extra line. -/
def stripLastEmpty : List (List Nat) → List (List Nat)
  | [] => []
  | [l] => if l = [] then [] else [l]
  | l :: rest => l :: stripLastEmpty rest

/-- ScanLines drops one trailing carriage return (code 13) from each line. -/
def dropCR (l : List Nat) : List Nat :=
  if l.getLast? = some 13 then l.dropLast else l

/-- The sequence of lines a bufio.Scanner with ScanLines produces from the
given file content. -/
def splitLines (content : List Nat) : List (List Nat) :=
  (stripLastEmpty (splitOn 10 content)).map dropCR

/-- Error values of the package: the exported sentinel errors of
inmemorydb.go and entry.go, plus one constructor per distinct IO failure
site that the Go code distinguishes by wrapping (a writer.Write failure in
appendEntry, a writer.Flush failure in Close, a file.Close failure). -/
inductive DbError where
  | badFormat
  | cannotDecode
  | notFound
  | alreadyExists
  | closed
  | ioWrite
  | ioFlush
  | ioClose
deriving Repr, DecidableEq

/-- The byte string "put", the action token of a Put entry. -/
def putTok : List Nat := [112, 117, 116]

/-- The byte string "del", the action token of a Delete entry. -/
def delTok : List Nat := [100, 101, 108]

/-- One log record, as in entry.go: an action token (a Go string, modelled
as bytes), a key (a Go string, modelled as bytes) and a value. -/
structure Entry where
  action : List Nat
  key : List Nat
  value : List Nat
deriving Repr, DecidableEq

/-- entry.toBytes: the line action,base64(key),base64(value) followed by a
newline (code 10); 44 is the comma. -/
def Entry.toBytes (e : Entry) : List Nat :=
  e.action ++ 44 :: (base64encode e.key ++ 44 :: (base64encode e.value ++ [10]))

/-- The encoded line of an entry as a bufio.Scanner returns it: toBytes
without the trailing newline. -/
def Entry.toLine (e : Entry) : List Nat :=
  e.toBytes.dropLast

/-- newEntryFromLine of entry.go: split the line on commas; anything but
exactly three fields is ErrBadFormat; base64-decode the second and third
fields, failing with the cannot-decode error; the first field becomes the
action unchecked. -/
def newEntryFromLine (line : List Nat) : Except DbError Entry :=
  match splitOn 44 line with
  | [a, k, v] =>
    match base64decode k with
    | none => .error .cannotDecode
    | some key =>
      match base64decode v with
      | none => .error .cannotDecode
      | some value => .ok ⟨a, key, value⟩
  | _ => .error .badFormat

/-- Decodes a whole log (file content or writer buffer) into its entry
sequence: every scanner line through newEntryFromLine. -/
def parseLog (bytes : List Nat) : Except DbError (List Entry) :=
  (splitLines bytes).mapM newEntryFromLine

/-- The in-memory map db.data. A Go map is modelled as an association list
with unique keys; iteration order of the model is list order (Go leaves map
iteration order unspecified and the spec accepts any order). -/
abbrev DataMap := List (List Nat × List Nat)

/-- Map lookup, db.data[key]. -/
def lookupKey (k : List Nat) : DataMap → Option (List Nat)
  | [] => none
  | (k2, v) :: rest => if k2 = k then some v else lookupKey k rest

/-- Map assignment db.data[key] = value: replace in place when the key is
present, append otherwise. -/
def upsert (k v : List Nat) : DataMap → DataMap
  | [] => [(k, v)]
  | (k2, v2) :: rest => if k2 = k then (k, v) :: rest else (k2, v2) :: upsert k v rest

/-- Map deletion delete(db.data, key). -/
def eraseKey (k : List Nat) : DataMap → DataMap
  | [] => []
  | (k2, v2) :: rest => if k2 = k then rest else (k2, v2) :: eraseKey k rest

/-- The DB state: the closed flag and map of inmemorydb.go, plus the file
system facts the code owns — the file content at FilePath (disk), the
pending bytes of the bufio writer (buffer) and the backup file written by
Shrink. The mutex serializes operations and is not part of the sequential
model; the FilePath string itself never influences behaviour. -/
structure DB where
  closed : Bool
  data : DataMap
  disk : List Nat
  buffer : List Nat
  bak : Option (List Nat)
deriving Repr, DecidableEq

/-- The body of the replay loop of load: the effect of one decoded entry on
the map — Put upserts, Del erases (other actions are rejected before this
function applies, see loadLines). -/
def applyEntry (e : Entry) (m : DataMap) : DataMap :=
  if e.action = putTok then upsert e.key e.value m
  else if e.action = delTok then eraseKey e.key m
  else m

/-- The scanner loop of load: decode each line, then switch on the action —
Put upserts, Del deletes, anything else is ErrBadFormat. A decode error
aborts the whole replay. -/
def loadLines (m : DataMap) : List (List Nat) → Except DbError DataMap
  | [] => .ok m
  | line :: rest =>
    match newEntryFromLine line with
    | .error e => .error e
    | .ok entry =>
      if entry.action = putTok then loadLines (upsert entry.key entry.value m) rest
      else if entry.action = delTok then loadLines (eraseKey entry.key m) rest
      else .error .badFormat

/-- Shrink (happy path of the IO calls): close the current file, rename the
on-disk file to the .bak sibling, create a fresh empty file and a fresh
writer, then append one Put entry per live key in map order. Nothing is
flushed: the rewritten entries sit in the writer buffer. -/
def shrink (db : DB) : DB :=
  { db with
    bak := some db.disk
    disk := []
    buffer := (db.data.map (fun kv => Entry.mk putTok kv.1 kv.2)).flatMap Entry.toBytes }

/-- Open plus load: when no file exists at the path, create an empty file
and start empty (no replay, no shrink); when a file exists, replay every
scanner line into the map and then run Shrink before returning the store. -/
def openDB (existing : Option (List Nat)) : Except DbError DB :=
  match existing with
  | none => .ok ⟨false, [], [], [], none⟩
  | some content =>
    match loadLines [] (splitLines content) with
    | .error e => .error e
    | .ok data => .ok (shrink ⟨false, data, content, [], none⟩)

/-- appendEntry: write the encoded entry into the bufio writer. The boolean
injects the possible write error; on failure nothing is recorded. -/
def appendEntry (db : DB) (e : Entry) (writeFails : Bool) : DB × Option DbError :=
  if writeFails then (db, some .ioWrite)
  else ({ db with buffer := db.buffer ++ e.toBytes }, none)

/-- PutObject: closed check, duplicate-key check, then the map mutation
followed by the log append; an append failure is returned after the map was
already mutated. -/
def putObject (db : DB) (key value : List Nat) (writeFails : Bool) :
    DB × Option DbError :=
  if db.closed then (db, some .closed)
  else if (lookupKey key db.data).isSome then (db, some .alreadyExists)
  else appendEntry { db with data := upsert key value db.data }
    (Entry.mk putTok key value) writeFails

/-- GetObject: closed check, then map lookup; an absent key is ErrNotFound. -/
def getObject (db : DB) (key : List Nat) : Except DbError (List Nat) :=
  if db.closed then .error .closed
  else
    match lookupKey key db.data with
    | none => .error .notFound
    | some v => .ok v

/-- DeleteObject: closed check, presence check, then the map deletion
followed by the log append of a Del entry with nil value. -/
def deleteObject (db : DB) (key : List Nat) (writeFails : Bool) :
    DB × Option DbError :=
  if db.closed then (db, some .closed)
  else if (lookupKey key db.data).isSome then
    appendEntry { db with data := eraseKey key db.data } (Entry.mk delTok key []) writeFails
  else (db, some .notFound)

/-- Has: false on a closed store, otherwise a map membership test. -/
def hasKey (db : DB) (key : List Nat) : Bool :=
  if db.closed then false else (lookupKey key db.data).isSome

/-- Size: the number of live keys; the Go code performs no closed check. -/
def sizeOp (db : DB) : Nat :=
  db.data.length

/-- Clear: replace the map by a fresh empty one; disk, buffer and the
closed flag are untouched, and the Go code performs no closed check. -/
def clearOp (db : DB) : DB :=
  { db with data := [] }

/-- Close, with the two IO failures injected: on an already-closed store
return ErrClose; otherwise Flush (on success the buffer reaches the disk
file), then always attempt the fd close. When the flush failed the Go code
returns the flush error at once — before setting closed, clearing the map
or releasing the mutex — so the state is unchanged. Otherwise the store is
marked closed, the map is cleared, and the fd-close error, if any, is
returned. -/
def closeDB (db : DB) (flushFails closeFails : Bool) : DB × Option DbError :=
  if db.closed then (db, some .closed)
  else if flushFails then (db, some .ioFlush)
  else
    ({ db with disk := db.disk ++ db.buffer, buffer := [], closed := true, data := [] },
      if closeFails then some .ioClose else none)

/-! ## Helper lemmas: base64 -/

theorem b64val_b64char : ∀ n < 64, b64val (b64char n) = some n := by decide

theorem b64char_notCtl (n : Nat) :
    b64char n ≠ 61 ∧ b64char n ≠ 44 ∧ b64char n ≠ 10 ∧ b64char n ≠ 13 := by
  unfold b64char
  split_ifs <;> omega

theorem b64val_lt {c a : Nat} (h : b64val c = some a) : a < 64 := by
  unfold b64val at h
  split_ifs at h <;> simp_all <;> omega

theorem base64encode_notCtl {l : List Nat} :
    ∀ x ∈ base64encode l, x ≠ 44 ∧ x ≠ 10 ∧ x ≠ 13 := by
  induction l using base64encode.induct with
  | case1 => simp [base64encode]
  | case2 a =>
    simp only [base64encode]
    intro x hx
    simp only [List.mem_cons, List.mem_singleton] at hx
    rcases hx with h | h | h | h | h
    all_goals first
      | (subst h; exact ⟨(b64char_notCtl _).2.1, (b64char_notCtl _).2.2.1, (b64char_notCtl _).2.2.2⟩)
      | (subst h; omega)
      | cases h
  | case3 a b =>
    simp only [base64encode]
    intro x hx
    simp only [List.mem_cons, List.mem_singleton] at hx
    rcases hx with h | h | h | h | h
    all_goals first
      | (subst h; exact ⟨(b64char_notCtl _).2.1, (b64char_notCtl _).2.2.1, (b64char_notCtl _).2.2.2⟩)
      | (subst h; omega)
      | cases h
  | case4 a b c rest ih =>
    simp only [base64encode]
    intro x hx
    simp at hx
    rcases hx with h | h | h | h | h
    · subst h; exact ⟨(b64char_notCtl _).2.1, (b64char_notCtl _).2.2.1, (b64char_notCtl _).2.2.2⟩
    · subst h; exact ⟨(b64char_notCtl _).2.1, (b64char_notCtl _).2.2.1, (b64char_notCtl _).2.2.2⟩
    · subst h; exact ⟨(b64char_notCtl _).2.1, (b64char_notCtl _).2.2.1, (b64char_notCtl _).2.2.2⟩
    · subst h; exact ⟨(b64char_notCtl _).2.1, (b64char_notCtl _).2.2.1, (b64char_notCtl _).2.2.2⟩
    · exact ih x h

theorem base64decodeCore_encode :
    ∀ l : List Nat, (∀ b ∈ l, b < 256) → base64decodeCore (base64encode l) = some l := by
  intro l
  induction l using base64encode.induct with
  | case1 => intro _; rfl
  | case2 a =>
    intro h
    have ha : a < 256 := h a (by simp)
    have e1 : b64val (b64char (a / 4)) = some (a / 4) := b64val_b64char _ (by omega)
    have e2 : b64val (b64char (a % 4 * 16)) = some (a % 4 * 16) := b64val_b64char _ (by omega)
    simp [base64encode, base64decodeCore, e1, e2]
    omega
  | case3 a b =>
    intro h
    have ha : a < 256 := h a (by simp)
    have hb : b < 256 := h b (by simp)
    have e1 : b64val (b64char (a / 4)) = some (a / 4) := b64val_b64char _ (by omega)
    have e2 : b64val (b64char (a % 4 * 16 + b / 16)) = some (a % 4 * 16 + b / 16) :=
      b64val_b64char _ (by omega)
    have e3 : b64val (b64char (b % 16 * 4)) = some (b % 16 * 4) := b64val_b64char _ (by omega)
    have n3 : b64char (b % 16 * 4) ≠ 61 := (b64char_notCtl _).1
    simp [base64encode, base64decodeCore, e1, e2, e3, n3]
    omega
  | case4 a b c rest ih =>
    intro h
    have ha : a < 256 := h a (by simp)
    have hb : b < 256 := h b (by simp)
    have hc : c < 256 := h c (by simp)
    have hrest : ∀ x ∈ rest, x < 256 := fun x hx => h x (by simp [hx])
    have e1 : b64val (b64char (a / 4)) = some (a / 4) := b64val_b64char _ (by omega)
    have e2 : b64val (b64char (a % 4 * 16 + b / 16)) = some (a % 4 * 16 + b / 16) :=
      b64val_b64char _ (by omega)
    have e3 : b64val (b64char (b % 16 * 4 + c / 64)) = some (b % 16 * 4 + c / 64) :=
      b64val_b64char _ (by omega)
    have e4 : b64val (b64char (c % 64)) = some (c % 64) := b64val_b64char _ (by omega)
    have n3 : b64char (b % 16 * 4 + c / 64) ≠ 61 := (b64char_notCtl _).1
    have n4 : b64char (c % 64) ≠ 61 := (b64char_notCtl _).1
    simp [base64encode, base64decodeCore, e1, e2, e3, e4, n3, n4, ih hrest]
    omega

theorem base64decode_encode {l : List Nat} (h : ∀ b ∈ l, b < 256) :
    base64decode (base64encode l) = some l := by
  unfold base64decode
  have hf : (base64encode l).filter (fun c => c ≠ 10 ∧ c ≠ 13) = base64encode l := by
    apply List.filter_eq_self.mpr
    intro a ha
    have := base64encode_notCtl a ha
    simp [this.2.1, this.2.2]
  rw [hf, base64decodeCore_encode l h]

theorem base64decodeCore_lt :
    ∀ s l, base64decodeCore s = some l → ∀ b ∈ l, b < 256 := by
  intro s
  induction s using base64decodeCore.induct with
  | case1 =>
    intro l h
    simp only [base64decodeCore] at h
    cases h
    simp
  | case2 c1 c2 c4 rest a b hb ha hc =>
    intro l h
    obtain ⟨hc4, hrest⟩ := hc
    subst hc4
    subst hrest
    simp [base64decodeCore, ha, hb] at h
    subst h
    have h1 := b64val_lt ha
    have h2 := b64val_lt hb
    intro x hx
    simp at hx
    omega
  | case3 c1 c2 c4 rest a b hb ha hc =>
    intro l h
    simp [base64decodeCore, ha, hb, hc] at h
  | case4 c1 c2 c3 a b hb ha hc3 c hc =>
    intro l h
    simp [base64decodeCore, ha, hb, hc, hc3] at h
    subst h
    have h1 := b64val_lt ha
    have h2 := b64val_lt hb
    have h3 := b64val_lt hc
    intro x hx
    simp at hx
    rcases hx with h | h <;> omega
  | case5 c1 c2 c3 rest a b hb ha hc3 c hc hrest =>
    intro l h
    simp [base64decodeCore, ha, hb, hc, hc3, hrest] at h
  | case6 c1 c2 c3 c4 rest a b hb ha hc3 c hc hc4 d tl htl hd ih =>
    intro l h
    simp [base64decodeCore, ha, hb, hc, hd, htl, hc3, hc4] at h
    subst h
    have h1 := b64val_lt ha
    have h2 := b64val_lt hb
    have h3 := b64val_lt hc
    have h4 := b64val_lt hd
    intro x hx
    simp at hx
    rcases hx with h | h | h | h
    · omega
    · omega
    · omega
    · exact ih tl htl x h
  | case7 c1 c2 c3 c4 rest a b hb ha hc3 c hc hc4 hfail ih =>
    intro l h
    rcases hv4 : b64val c4 with _ | d
    · simp [base64decodeCore, ha, hb, hc, hv4, hc3, hc4] at h
    · rcases hrest : base64decodeCore rest with _ | tl
      · simp [base64decodeCore, ha, hb, hc, hv4, hrest, hc3, hc4] at h
      · exact (hfail d tl hv4 hrest).elim
  | case8 c1 c2 c3 c4 rest a b hb ha hc3 hc =>
    intro l h
    simp [base64decodeCore, ha, hb, hc, hc3] at h
  | case9 c1 c2 c3 c4 rest hfail =>
    intro l h
    rcases hv1 : b64val c1 with _ | a
    · simp [base64decodeCore, hv1] at h
    · rcases hv2 : b64val c2 with _ | b
      · simp [base64decodeCore, hv1, hv2] at h
      · exact (hfail a b hv1 hv2).elim
  | case10 t h1 h2 =>
    intro l h
    rcases t with _ | ⟨x1, _ | ⟨x2, _ | ⟨x3, _ | ⟨x4, tt⟩⟩⟩⟩
    · exact (h1 rfl).elim
    · simp [base64decodeCore] at h
    · simp [base64decodeCore] at h
    · simp [base64decodeCore] at h
    · exact (h2 x1 x2 x3 x4 tt rfl).elim

theorem base64decode_lt {s l : List Nat} (h : base64decode s = some l) :
    ∀ b ∈ l, b < 256 :=
  base64decodeCore_lt _ _ h

theorem base64encode_not_mem_comma (l : List Nat) : 44 ∉ base64encode l := by
  intro h
  exact (base64encode_notCtl 44 h).1 rfl

/-! ## Helper lemmas: line splitting -/

theorem splitOn_ne_nil (sep : Nat) (l : List Nat) : splitOn sep l ≠ [] := by
  cases l with
  | nil => simp [splitOn]
  | cons c rest =>
    simp only [splitOn]
    rcases hr : splitOn sep rest with _ | ⟨a, t⟩
    · simp [hr]
    · simp only [hr]
      split <;> simp

theorem splitOn_not_mem {sep : Nat} {l : List Nat} (h : sep ∉ l) :
    splitOn sep l = [l] := by
  induction l with
  | nil => rfl
  | cons c rest ih =>
    have hc : ¬c = sep := fun e => h (by simp [e])
    have hr : sep ∉ rest := fun hm => h (List.mem_cons_of_mem _ hm)
    simp only [splitOn, ih hr]
    simp [hc]

theorem splitOn_append {sep : Nat} {l1 : List Nat} (l2 : List Nat) (h : sep ∉ l1) :
    splitOn sep (l1 ++ sep :: l2) = l1 :: splitOn sep l2 := by
  induction l1 with
  | nil =>
    simp only [List.nil_append, splitOn]
    cases hr : splitOn sep l2 with
    | nil => exact absurd hr (splitOn_ne_nil _ _)
    | cons a t => simp
  | cons c rest ih =>
    have hc : ¬c = sep := fun e => h (by simp [e])
    have hr : sep ∉ rest := fun hm => h (List.mem_cons_of_mem _ hm)
    simp only [List.cons_append, splitOn, List.append_eq]
    rw [ih hr]
    simp [hc]

theorem dropCR_of_not_mem {l : List Nat} (h : 13 ∉ l) : dropCR l = l := by
  unfold dropCR
  split
  · next hg =>
    exact absurd (List.mem_of_mem_getLast? hg) h
  · rfl

theorem stripLastEmpty_cons_cons (a b : List Nat) (t : List (List Nat)) :
    stripLastEmpty (a :: b :: t) = a :: stripLastEmpty (b :: t) := rfl

theorem splitLines_cons {body : List Nat} (rest : List Nat)
    (h10 : 10 ∉ body) (h13 : 13 ∉ body) :
    splitLines (body ++ 10 :: rest) = body :: splitLines rest := by
  unfold splitLines
  rw [splitOn_append rest h10]
  cases hr : splitOn 10 rest with
  | nil => exact absurd hr (splitOn_ne_nil _ _)
  | cons a t =>
    rw [stripLastEmpty_cons_cons, List.map_cons, dropCR_of_not_mem h13]

/-! ## Helper lemmas: the entry codec -/

/-- A well-formed entry: the action token is the Put or the Delete token and
key and value are byte strings. Every entry held in memory by the store and
every entry the store itself writes is of this shape. -/
def WFEntry (e : Entry) : Prop :=
  (e.action = putTok ∨ e.action = delTok) ∧
  (∀ b ∈ e.key, b < 256) ∧ (∀ b ∈ e.value, b < 256)

instance (e : Entry) : Decidable (WFEntry e) := by
  unfold WFEntry
  infer_instance

theorem toLine_eq (e : Entry) :
    e.toLine = e.action ++ 44 :: (base64encode e.key ++ 44 :: base64encode e.value) := by
  unfold Entry.toLine Entry.toBytes
  have h : e.action ++ 44 :: (base64encode e.key ++ 44 :: (base64encode e.value ++ [10]))
      = (e.action ++ 44 :: (base64encode e.key ++ 44 :: base64encode e.value)) ++ [10] := by
    simp
  rw [h, List.dropLast_concat]

theorem toBytes_eq_toLine (e : Entry) : e.toBytes = e.toLine ++ [10] := by
  rw [toLine_eq]
  unfold Entry.toBytes
  simp

theorem wf_action_notCtl {e : Entry}
    (h : e.action = putTok ∨ e.action = delTok) :
    44 ∉ e.action ∧ 10 ∉ e.action ∧ 13 ∉ e.action := by
  rcases h with h | h <;> rw [h] <;> exact ⟨by decide, by decide, by decide⟩

theorem newEntryFromLine_toLine {e : Entry} (ha : 44 ∉ e.action)
    (hk : ∀ b ∈ e.key, b < 256) (hv : ∀ b ∈ e.value, b < 256) :
    newEntryFromLine e.toLine = .ok e := by
  rw [toLine_eq]
  unfold newEntryFromLine
  rw [splitOn_append _ ha, splitOn_append _ (base64encode_not_mem_comma _),
    splitOn_not_mem (base64encode_not_mem_comma _)]
  simp only [base64decode_encode hk, base64decode_encode hv]

theorem not_mem_toLine {e : Entry} (hwf : WFEntry e) : 10 ∉ e.toLine ∧ 13 ∉ e.toLine := by
  obtain ⟨ha44, ha10, ha13⟩ := wf_action_notCtl hwf.1
  rw [toLine_eq]
  constructor <;> intro hmem <;> simp only [List.mem_append, List.mem_cons] at hmem
  · rcases hmem with h | h | h
    · exact ha10 h
    · omega
    · rcases h with h | h | h
      · exact (base64encode_notCtl _ h).2.1 rfl
      · omega
      · exact (base64encode_notCtl _ h).2.1 rfl
  · rcases hmem with h | h | h
    · exact ha13 h
    · omega
    · rcases h with h | h | h
      · exact (base64encode_notCtl _ h).2.2 rfl
      · omega
      · exact (base64encode_notCtl _ h).2.2 rfl

theorem splitLines_toBytes_append {e : Entry} (hwf : WFEntry e) (rest : List Nat) :
    splitLines (e.toBytes ++ rest) = e.toLine :: splitLines rest := by
  rw [toBytes_eq_toLine, List.append_assoc, List.singleton_append,
    splitLines_cons rest (not_mem_toLine hwf).1 (not_mem_toLine hwf).2]

theorem splitLines_nil : splitLines [] = [] := rfl

theorem splitLines_flatMap_append {es : List Entry} (hwf : ∀ e ∈ es, WFEntry e)
    (r : List Nat) :
    splitLines (es.flatMap Entry.toBytes ++ r) = es.map Entry.toLine ++ splitLines r := by
  induction es with
  | nil => rfl
  | cons e rest ih =>
    have he : WFEntry e := hwf e (by simp)
    have hr : ∀ x ∈ rest, WFEntry x := fun x hx => hwf x (by simp [hx])
    rw [List.flatMap_cons, List.append_assoc, splitLines_toBytes_append he,
      ih hr, List.map_cons, List.cons_append]

theorem splitLines_flatMap {es : List Entry} (hwf : ∀ e ∈ es, WFEntry e) :
    splitLines (es.flatMap Entry.toBytes) = es.map Entry.toLine := by
  have h := splitLines_flatMap_append hwf []
  simpa [splitLines_nil] using h

/-! ## Helper lemmas: the in-memory map -/

theorem lookupKey_upsert (k v : List Nat) (m : DataMap) :
    lookupKey k (upsert k v m) = some v := by
  induction m with
  | nil => simp [upsert, lookupKey]
  | cons kv rest ih =>
    obtain ⟨k2, v2⟩ := kv
    by_cases h : k2 = k
    · simp [upsert, lookupKey, h]
    · simp [upsert, lookupKey, h, ih]

theorem upsert_not_mem {k : List Nat} (v : List Nat) {m : DataMap}
    (h : lookupKey k m = none) : upsert k v m = m ++ [(k, v)] := by
  induction m with
  | nil => rfl
  | cons kv rest ih =>
    obtain ⟨k2, v2⟩ := kv
    by_cases h2 : k2 = k
    · simp [lookupKey, h2] at h
    · simp only [lookupKey, if_neg h2] at h
      simp [upsert, h2, ih h]

theorem lookupKey_append_none {k : List Nat} {m1 : DataMap} (m2 : DataMap)
    (h : lookupKey k m1 = none) : lookupKey k (m1 ++ m2) = lookupKey k m2 := by
  induction m1 with
  | nil => rfl
  | cons kv rest ih =>
    obtain ⟨k2, v2⟩ := kv
    by_cases h2 : k2 = k
    · simp [lookupKey, h2] at h
    · simp only [lookupKey, if_neg h2] at h
      simp [lookupKey, h2, ih h]

theorem mem_upsert {kv : List Nat × List Nat} {k v : List Nat} {m : DataMap}
    (h : kv ∈ upsert k v m) : kv = (k, v) ∨ kv ∈ m := by
  induction m with
  | nil => simp [upsert] at h; simp [h]
  | cons kv2 rest ih =>
    obtain ⟨k2, v2⟩ := kv2
    by_cases h2 : k2 = k
    · simp only [upsert, if_pos h2] at h
      rcases List.mem_cons.mp h with h | h
      · exact .inl h
      · exact .inr (by simp [h])
    · simp only [upsert, if_neg h2] at h
      rcases List.mem_cons.mp h with h | h
      · exact .inr (by simp [h])
      · rcases ih h with h3 | h3
        · exact .inl h3
        · exact .inr (by simp [h3])

theorem mem_keys_upsert {a k v : List Nat} {m : DataMap}
    (h : a ∈ (upsert k v m).map Prod.fst) : a = k ∨ a ∈ m.map Prod.fst := by
  simp only [List.mem_map] at h
  obtain ⟨kv, hkv, hfst⟩ := h
  rcases mem_upsert hkv with h | h
  · subst h
    exact .inl hfst.symm
  · exact .inr (by simp only [List.mem_map]; exact ⟨kv, h, hfst⟩)

theorem keys_upsert_nodup {k v : List Nat} {m : DataMap}
    (h : (m.map Prod.fst).Nodup) : ((upsert k v m).map Prod.fst).Nodup := by
  induction m with
  | nil => simp [upsert]
  | cons kv rest ih =>
    obtain ⟨k2, v2⟩ := kv
    simp only [List.map_cons, List.nodup_cons] at h
    by_cases h2 : k2 = k
    · have he : upsert k v ((k2, v2) :: rest) = (k, v) :: rest := by
        simp [upsert, h2]
      rw [he, List.map_cons, List.nodup_cons]
      subst h2
      exact h
    · simp only [upsert, if_neg h2, List.map_cons, List.nodup_cons]
      refine ⟨fun hmem => ?_, ih h.2⟩
      rcases mem_keys_upsert hmem with h3 | h3
      · exact h2 h3
      · exact h.1 h3

theorem eraseKey_sublist (k : List Nat) (m : DataMap) : (eraseKey k m).Sublist m := by
  induction m with
  | nil => simp [eraseKey]
  | cons kv rest ih =>
    obtain ⟨k2, v2⟩ := kv
    by_cases h2 : k2 = k
    · simp only [eraseKey, if_pos h2]
      exact List.sublist_cons_self _ _
    · simp only [eraseKey, if_neg h2]
      exact ih.cons₂ _

/-- Well-formed map: every key and value is a byte string and the keys are
pairwise distinct. This is an invariant of db.data. -/
def WFMap (m : DataMap) : Prop :=
  (∀ kv ∈ m, (∀ b ∈ kv.1, b < 256) ∧ (∀ b ∈ kv.2, b < 256)) ∧
  (m.map Prod.fst).Nodup

theorem WFMap_nil : WFMap [] := ⟨by simp, by simp⟩

theorem WFMap_upsert {m : DataMap} {k v : List Nat} (h : WFMap m)
    (hk : ∀ b ∈ k, b < 256) (hv : ∀ b ∈ v, b < 256) : WFMap (upsert k v m) := by
  refine ⟨fun kv hkv => ?_, keys_upsert_nodup h.2⟩
  rcases mem_upsert hkv with h2 | h2
  · subst h2
    exact ⟨hk, hv⟩
  · exact h.1 kv h2

theorem WFMap_erase {m : DataMap} (k : List Nat) (h : WFMap m) : WFMap (eraseKey k m) :=
  ⟨fun kv hkv => h.1 kv ((eraseKey_sublist k m).mem hkv),
   h.2.sublist ((eraseKey_sublist k m).map Prod.fst)⟩

/-! ## Helper lemmas: replay -/

/-- The net effect of replaying a list of entries onto a map. -/
def replayEntries (es : List Entry) (m : DataMap) : DataMap :=
  es.foldl (fun acc e => applyEntry e acc) m

theorem loadLines_append (m : DataMap) (l1 l2 : List (List Nat)) :
    loadLines m (l1 ++ l2) =
      match loadLines m l1 with
      | .error e => .error e
      | .ok m2 => loadLines m2 l2 := by
  induction l1 generalizing m with
  | nil => simp [loadLines]
  | cons line rest ih =>
    rcases hn : newEntryFromLine line with e | entry
    · simp [loadLines, hn]
    · simp only [List.cons_append, loadLines, hn]
      split_ifs
      · exact ih _
      · exact ih _
      · rfl

theorem loadLines_toLine_cons {e : Entry} (hwf : WFEntry e) (m : DataMap)
    (rest : List (List Nat)) :
    loadLines m (e.toLine :: rest) = loadLines (applyEntry e m) rest := by
  have hline := newEntryFromLine_toLine (wf_action_notCtl hwf.1).1 hwf.2.1 hwf.2.2
  simp only [loadLines, hline]
  unfold applyEntry
  split_ifs with h1 h2
  · rfl
  · rfl
  · rcases hwf.1 with h | h
    · exact absurd h h1
    · exact absurd h h2

theorem loadLines_map_toLine {es : List Entry} (hwf : ∀ e ∈ es, WFEntry e)
    (m : DataMap) :
    loadLines m (es.map Entry.toLine) = .ok (replayEntries es m) := by
  induction es generalizing m with
  | nil => rfl
  | cons e rest ih =>
    rw [List.map_cons, loadLines_toLine_cons (hwf e (by simp)),
      ih (fun x hx => hwf x (by simp [hx]))]
    rfl

theorem replayEntries_puts {m : DataMap} (acc : DataMap)
    (hdisj : ∀ kv ∈ m, lookupKey kv.1 acc = none)
    (hnd : (m.map Prod.fst).Nodup) :
    replayEntries (m.map (fun kv => Entry.mk putTok kv.1 kv.2)) acc = acc ++ m := by
  induction m generalizing acc with
  | nil => simp [replayEntries]
  | cons kv rest ih =>
    obtain ⟨k, v⟩ := kv
    simp only [List.map_cons, replayEntries, List.foldl_cons]
    have h1 : applyEntry ⟨putTok, k, v⟩ acc = acc ++ [(k, v)] := by
      unfold applyEntry
      simp [upsert_not_mem v (hdisj (k, v) (by simp))]
    rw [h1]
    simp only [List.map_cons, List.nodup_cons] at hnd
    have hdisj2 : ∀ kv ∈ rest, lookupKey kv.1 (acc ++ [(k, v)]) = none := by
      intro kv2 hkv2
      have hk2 : kv2.1 ≠ k := by
        intro he
        exact hnd.1 (by simp only [List.mem_map]; exact ⟨kv2, hkv2, he⟩)
      rw [lookupKey_append_none _ (hdisj kv2 (by simp [hkv2]))]
      simp only [lookupKey]
      rw [if_neg (fun h => hk2 h.symm)]
    have h3 := ih (acc ++ [(k, v)]) hdisj2 hnd.2
    unfold replayEntries at h3
    rw [h3, List.append_assoc, List.singleton_append]

theorem mapM_newEntryFromLine_toLine {es : List Entry} (hwf : ∀ e ∈ es, WFEntry e) :
    (es.map Entry.toLine).mapM newEntryFromLine = .ok es := by
  induction es with
  | nil => rfl
  | cons e rest ih =>
    have he := hwf e (by simp)
    rw [List.map_cons, List.mapM_cons,
      newEntryFromLine_toLine (wf_action_notCtl he.1).1 he.2.1 he.2.2,
      ih (fun x hx => hwf x (by simp [hx]))]
    rfl

theorem parseLog_flatMap {es : List Entry} (hwf : ∀ e ∈ es, WFEntry e) :
    parseLog (es.flatMap Entry.toBytes) = .ok es := by
  unfold parseLog
  rw [splitLines_flatMap hwf, mapM_newEntryFromLine_toLine hwf]

/-! ## Helper lemmas: load preserves well-formedness -/

theorem newEntryFromLine_bounds {line : List Nat} {e : Entry}
    (h : newEntryFromLine line = .ok e) :
    (∀ b ∈ e.key, b < 256) ∧ (∀ b ∈ e.value, b < 256) := by
  unfold newEntryFromLine at h
  rcases hs : splitOn 44 line with _ | ⟨a, _ | ⟨k, _ | ⟨v, _ | ⟨x, t⟩⟩⟩⟩ <;>
      simp only [hs] at h
  · exact absurd h (by simp)
  · exact absurd h (by simp)
  · exact absurd h (by simp)
  · rcases hk : base64decode k with _ | key <;> simp only [hk] at h
    · exact absurd h (by simp)
    · rcases hv : base64decode v with _ | value <;> simp only [hv] at h
      · exact absurd h (by simp)
      · cases h
        exact ⟨base64decode_lt hk, base64decode_lt hv⟩
  · exact absurd h (by simp)

theorem loadLines_WF {ls : List (List Nat)} :
    ∀ m d, loadLines m ls = .ok d → WFMap m → WFMap d := by
  induction ls with
  | nil =>
    intro m d h hm
    simp only [loadLines] at h
    cases h
    exact hm
  | cons line rest ih =>
    intro m d h hm
    rcases hn : newEntryFromLine line with e | entry
    · simp [loadLines, hn] at h
    · have hb := newEntryFromLine_bounds hn
      simp only [loadLines, hn] at h
      split_ifs at h with h1 h2
      · exact ih _ _ h (WFMap_upsert hm hb.1 hb.2)
      · exact ih _ _ h (WFMap_erase _ hm)

/-! ## Helper lemmas: open and the consistency invariant -/

theorem openDB_some {content : List Nat} {db : DB} (h : openDB (some content) = .ok db) :
    ∃ data, loadLines [] (splitLines content) = .ok data ∧
      db = shrink ⟨false, data, content, [], none⟩ := by
  unfold openDB at h
  rcases hl : loadLines [] (splitLines content) with e | data
  · simp only [hl] at h
    exact absurd h (by simp)
  · simp only [hl, Except.ok.injEq] at h
    exact ⟨data, rfl, h.symm⟩

/-- The consistency invariant of spec section 3: the bytes the store has
written to its log — the on-disk content followed by the pending writer
buffer — encode a sequence of well-formed entries whose replay through the
load loop yields exactly the in-memory map. Every store produced by Open
satisfies it, and the mutating operations preserve it. -/
def Consistent (db : DB) : Prop :=
  ∃ es : List Entry,
    db.disk ++ db.buffer = es.flatMap Entry.toBytes ∧
    (∀ e ∈ es, WFEntry e) ∧
    loadLines [] (es.map Entry.toLine) = .ok db.data

theorem openDB_of_flatMap {bytes : List Nat} {es : List Entry} {d : DataMap}
    (hrep : bytes = es.flatMap Entry.toBytes)
    (hwf : ∀ e ∈ es, WFEntry e)
    (hload : loadLines [] (es.map Entry.toLine) = .ok d) :
    openDB (some bytes) = .ok (shrink ⟨false, d, bytes, [], none⟩) := by
  unfold openDB
  rw [hrep]
  simp only [splitLines_flatMap hwf, hload]

/-- Opening a path whose file holds the given bytes and then running
GetObject on the resulting store; models the close-then-reopen-then-get
sequence of the durability property. -/
def reopenGet (content k : List Nat) : Except DbError (List Nat) :=
  match openDB (some content) with
  | .error e => .error e
  | .ok db2 => getObject db2 k

/-- Opening a path whose file holds the given bytes and returning the
replayed in-memory map of the resulting store. -/
def reopenData (content : List Nat) : Except DbError DataMap :=
  match openDB (some content) with
  | .error e => .error e
  | .ok db2 => .ok db2.data

/-! ## Claims -/

/-- C1: for every entry whose action is the Put or the Delete token and
whose key and value are arbitrary byte sequences (the empty value, commas,
newlines and high bytes included), the encoded line scans back as exactly
one line and decoding that line through newEntryFromLine reproduces the
original entry. -/
theorem c1_roundtrip (e : Entry)
    (hact : e.action = putTok ∨ e.action = delTok)
    (hk : ∀ b ∈ e.key, b < 256) (hv : ∀ b ∈ e.value, b < 256) :
    splitLines e.toBytes = [e.toLine] ∧ newEntryFromLine e.toLine = .ok e := by
  constructor
  · have h := splitLines_toBytes_append (⟨hact, hk, hv⟩ : WFEntry e) []
    simpa [splitLines_nil] using h
  · exact newEntryFromLine_toLine (wf_action_notCtl hact).1 hk hv

/-- Witness for C1 at a concrete entry whose value holds a comma (44), a
newline (10), a high byte (255) and a zero byte. -/
theorem c1_roundtrip_witness :
    splitLines (Entry.toBytes ⟨putTok, [107, 101, 121], [44, 10, 255, 0]⟩) =
      [Entry.toLine ⟨putTok, [107, 101, 121], [44, 10, 255, 0]⟩] ∧
    newEntryFromLine (Entry.toLine ⟨putTok, [107, 101, 121], [44, 10, 255, 0]⟩) =
      .ok ⟨putTok, [107, 101, 121], [44, 10, 255, 0]⟩ :=
  c1_roundtrip ⟨putTok, [107, 101, 121], [44, 10, 255, 0]⟩ (.inl rfl)
    (by decide) (by decide)

/-- C7: a PutObject on a key that is already present returns ErrAlreadyExists
and leaves the whole store state — map, disk and writer buffer — unchanged,
and GetObject still returns the previously stored value. -/
theorem c7_duplicate_put (db : DB) (k v1 v2 : List Nat) (w : Bool)
    (h : db.closed = false) (hv : lookupKey k db.data = some v1) :
    putObject db k v2 w = (db, some .alreadyExists) ∧ getObject db k = .ok v1 := by
  constructor
  · simp [putObject, h, hv]
  · simp [getObject, h, hv]

/-- Witness for C7 on a store holding key [107] with value [1]. -/
theorem c7_duplicate_put_witness :
    putObject ⟨false, [([107], [1])], [], [], none⟩ [107] [2] false =
      (⟨false, [([107], [1])], [], [], none⟩, some .alreadyExists) ∧
    getObject ⟨false, [([107], [1])], [], [], none⟩ [107] = .ok [1] :=
  c7_duplicate_put ⟨false, [([107], [1])], [], [], none⟩ [107] [1] [2] false rfl rfl

/-- C9: when the log append of a PutObject on a fresh key fails, the write
error is returned to the caller, yet the key is present in the in-memory
map afterwards (the mutation is not rolled back), and nothing was recorded
in the writer buffer. -/
theorem c9_failed_append (db : DB) (k v : List Nat)
    (h : db.closed = false) (hk : lookupKey k db.data = none) :
    putObject db k v true = ({ db with data := upsert k v db.data }, some .ioWrite) ∧
    lookupKey k (putObject db k v true).1.data = some v ∧
    (putObject db k v true).1.buffer = db.buffer := by
  have hp : putObject db k v true = ({ db with data := upsert k v db.data }, some .ioWrite) := by
    simp [putObject, h, hk, appendEntry]
  refine ⟨hp, ?_, ?_⟩
  · rw [hp]
    exact lookupKey_upsert k v db.data
  · rw [hp]

/-- Witness for C9 on the empty open store. -/
theorem c9_failed_append_witness :
    putObject ⟨false, [], [], [], none⟩ [107] [5] true =
      (⟨false, [([107], [5])], [], [], none⟩, some .ioWrite) ∧
    lookupKey [107] (putObject ⟨false, [], [], [], none⟩ [107] [5] true).1.data = some [5] ∧
    (putObject ⟨false, [], [], [], none⟩ [107] [5] true).1.buffer = [] :=
  c9_failed_append ⟨false, [], [], [], none⟩ [107] [5] rfl rfl

/-- C10, failing path: Close on an open store whose Flush fails does attempt
the fd close and reports the flush error preferentially (the fd-close
outcome g is irrelevant to the result), but — against the claim — it
returns with the store state completely unchanged: the closed flag is still
false, the map and buffer are kept, and a second Close does not return the
closed error (it reports the flush error again). Only when the flush
succeeds is the store left Closed with a second Close returning ErrClose.
In the Go code this early return also leaks the held mutex. -/
theorem c10_close_flush_failure (db : DB) (f g : Bool) (h : db.closed = false) :
    closeDB db true g = (db, some .ioFlush) ∧
    (closeDB db true g).1.closed = false ∧
    (closeDB (closeDB db true g).1 true g).2 = some .ioFlush ∧
    (closeDB db false false).1.closed = true ∧
    (closeDB (closeDB db false false).1 f g).2 = some .closed := by
  have h1 : closeDB db true g = (db, some .ioFlush) := by simp [closeDB, h]
  refine ⟨h1, by rw [h1]; exact h, by rw [h1, h1], by simp [closeDB, h], ?_⟩
  have h3 : closeDB db false false =
      (({ closed := true, data := [], disk := db.disk ++ db.buffer, buffer := [],
          bak := db.bak } : DB), none) := by
    simp [closeDB, h]
  rw [h3]
  simp [closeDB]

/-- Witness for C10 on a concrete open store with one key. -/
theorem c10_close_flush_failure_witness :
    closeDB ⟨false, [([107], [5])], [], [112], none⟩ true false =
      (⟨false, [([107], [5])], [], [112], none⟩, some .ioFlush) ∧
    (closeDB ⟨false, [([107], [5])], [], [112], none⟩ true false).1.closed = false ∧
    (closeDB (closeDB ⟨false, [([107], [5])], [], [112], none⟩ true false).1
      true false).2 = some .ioFlush ∧
    (closeDB ⟨false, [([107], [5])], [], [112], none⟩ false false).1.closed = true ∧
    (closeDB (closeDB ⟨false, [([107], [5])], [], [112], none⟩ false false).1
      false false).2 = some .closed :=
  c10_close_flush_failure ⟨false, [([107], [5])], [], [112], none⟩ false false rfl

/-- C3, counterexample: Size and Clear perform no closed check. On the
store obtained by opening an empty path and closing it, Size returns 0 —
the very same answer as on the open empty store, with no error — and Clear
returns normally, leaving the closed store unchanged. So not every public
operation of a closed store fails with the closed error, and through Size a
caller cannot tell a closed store from an empty open one. -/
theorem c3_counterexample :
    openDB none = .ok ⟨false, [], [], [], none⟩ ∧
    (closeDB ⟨false, [], [], [], none⟩ false false).1.closed = true ∧
    sizeOp (closeDB ⟨false, [], [], [], none⟩ false false).1 =
      sizeOp ⟨false, [], [], [], none⟩ ∧
    clearOp (closeDB ⟨false, [], [], [], none⟩ false false).1 =
      (closeDB ⟨false, [], [], [], none⟩ false false).1 :=
  ⟨rfl, rfl, rfl, rfl⟩

/-- C3, amended: after a successful Close, PutObject, GetObject and
DeleteObject return the closed error and Has returns false, for any key and
any injected IO outcome; but Size does not fail — it returns 0, the size of
the cleared map — and Clear does not fail either, it is a silent no-op on
the already-empty map; a further Close returns the closed error. -/
theorem c3_closed_store (db : DB) (k v : List Nat) (w w2 f g : Bool)
    (h : db.closed = false) :
    putObject (closeDB db false false).1 k v w =
      ((closeDB db false false).1, some .closed) ∧
    getObject (closeDB db false false).1 k = .error .closed ∧
    deleteObject (closeDB db false false).1 k w2 =
      ((closeDB db false false).1, some .closed) ∧
    hasKey (closeDB db false false).1 k = false ∧
    sizeOp (closeDB db false false).1 = 0 ∧
    clearOp (closeDB db false false).1 = (closeDB db false false).1 ∧
    (closeDB (closeDB db false false).1 f g).2 = some .closed := by
  have h3 : closeDB db false false =
      (({ closed := true, data := [], disk := db.disk ++ db.buffer, buffer := [],
          bak := db.bak } : DB), none) := by
    simp [closeDB, h]
  rw [h3]
  refine ⟨?_, ?_, ?_, ?_, ?_, ?_, ?_⟩ <;>
    simp [putObject, getObject, deleteObject, hasKey, sizeOp, clearOp, closeDB]

/-- Witness for C3 (amended) on a store holding one key before the close. -/
theorem c3_closed_store_witness :
    putObject (closeDB ⟨false, [([107], [5])], [], [], none⟩ false false).1 [107] [6] false =
      ((closeDB ⟨false, [([107], [5])], [], [], none⟩ false false).1, some .closed) ∧
    getObject (closeDB ⟨false, [([107], [5])], [], [], none⟩ false false).1 [107] =
      .error .closed ∧
    deleteObject (closeDB ⟨false, [([107], [5])], [], [], none⟩ false false).1 [107] false =
      ((closeDB ⟨false, [([107], [5])], [], [], none⟩ false false).1, some .closed) ∧
    hasKey (closeDB ⟨false, [([107], [5])], [], [], none⟩ false false).1 [107] = false ∧
    sizeOp (closeDB ⟨false, [([107], [5])], [], [], none⟩ false false).1 = 0 ∧
    clearOp (closeDB ⟨false, [([107], [5])], [], [], none⟩ false false).1 =
      (closeDB ⟨false, [([107], [5])], [], [], none⟩ false false).1 ∧
    (closeDB (closeDB ⟨false, [([107], [5])], [], [], none⟩ false false).1 false false).2 =
      some .closed :=
  c3_closed_store ⟨false, [([107], [5])], [], [], none⟩ [107] [6] false false false false rfl

theorem newEntryFromLine_not3 {line : List Nat}
    (h : (splitOn 44 line).length ≠ 3) :
    newEntryFromLine line = .error .badFormat := by
  unfold newEntryFromLine
  rcases hs : splitOn 44 line with _ | ⟨a, _ | ⟨b, _ | ⟨c, _ | ⟨d, t⟩⟩⟩⟩ <;>
      simp only [hs]
  · exact absurd (by simp [hs]) h

/-- C4: during replay, a log line whose kind token is neither the Put nor
the Delete token is rejected with the bad-format error. The line decoder
newEntryFromLine itself accepts the line — it keeps the first field as the
action unchecked — and the kind check happens in the replay switch of load,
whose default branch returns ErrBadFormat. -/
theorem c4_unknown_kind (t k v : List Nat) (m : DataMap) (rest : List (List Nat))
    (hno : 44 ∉ t) (hp : t ≠ putTok) (hd : t ≠ delTok)
    (hbk : ∀ b ∈ k, b < 256) (hbv : ∀ b ∈ v, b < 256) :
    newEntryFromLine (t ++ 44 :: (base64encode k ++ 44 :: base64encode v)) =
      .ok ⟨t, k, v⟩ ∧
    loadLines m ((t ++ 44 :: (base64encode k ++ 44 :: base64encode v)) :: rest) =
      .error .badFormat := by
  have hline : newEntryFromLine (t ++ 44 :: (base64encode k ++ 44 :: base64encode v)) =
      .ok ⟨t, k, v⟩ := by
    have h := @newEntryFromLine_toLine ⟨t, k, v⟩ hno hbk hbv
    rwa [toLine_eq] at h
  refine ⟨hline, ?_⟩
  simp only [loadLines, hline]
  rw [if_neg hp, if_neg hd]

/-- Witness for C4 with the kind token "ups". -/
theorem c4_unknown_kind_witness :
    newEntryFromLine ([117, 112, 115] ++ 44 :: (base64encode [107] ++ 44 :: base64encode [5])) =
      .ok ⟨[117, 112, 115], [107], [5]⟩ ∧
    loadLines [] (([117, 112, 115] ++ 44 :: (base64encode [107] ++ 44 :: base64encode [5])) :: []) =
      .error .badFormat :=
  c4_unknown_kind [117, 112, 115] [107] [5] [] [] (by decide) (by decide) (by decide)
    (by decide) (by decide)

/-- C5: opening a path whose log file consists of well-formed entries
followed by a corrupt line that does not split into exactly three
comma-separated fields fails with the bad-format error; the store does not
come up at all, so there is no partial load. -/
theorem c5_malformed_aborts_open (es : List Entry) (bad : List Nat) (rest : List Nat)
    (hwf : ∀ e ∈ es, WFEntry e)
    (hbad : (splitOn 44 bad).length ≠ 3)
    (h10 : 10 ∉ bad) (h13 : 13 ∉ bad) :
    openDB (some (es.flatMap Entry.toBytes ++ (bad ++ 10 :: rest))) = .error .badFormat := by
  have hsplit : splitLines (es.flatMap Entry.toBytes ++ (bad ++ 10 :: rest)) =
      es.map Entry.toLine ++ (bad :: splitLines rest) := by
    rw [splitLines_flatMap_append hwf, splitLines_cons rest h10 h13]
  have hload : loadLines [] (es.map Entry.toLine ++ (bad :: splitLines rest)) =
      .error .badFormat := by
    rw [loadLines_append, loadLines_map_toLine hwf]
    simp only [loadLines, newEntryFromLine_not3 hbad]
  unfold openDB
  simp only [hsplit, hload]

/-- Witness for C5: three distinct keys written, then a line with only two
comma-separated fields appended, as in the concrete scenario of the spec. -/
theorem c5_malformed_aborts_open_witness :
    openDB (some
      (([⟨putTok, [49], [97]⟩, ⟨putTok, [50], [98]⟩,
         ⟨putTok, [51], [99]⟩] : List Entry).flatMap Entry.toBytes ++
        ([120, 44, 121] ++ 10 :: []))) = .error .badFormat :=
  c5_malformed_aborts_open
    [⟨putTok, [49], [97]⟩, ⟨putTok, [50], [98]⟩, ⟨putTok, [51], [99]⟩]
    [120, 44, 121] [] (by decide) (by decide) (by decide) (by decide)

/-- C2: on a consistent open store, putting a fresh key, closing with no IO
failure, and reopening the file the close left on disk yields a store on
which GetObject returns exactly the stored bytes. -/
theorem c2_durability (db : DB) (k v : List Nat)
    (hcons : Consistent db) (hopen : db.closed = false)
    (hk : lookupKey k db.data = none)
    (hbk : ∀ b ∈ k, b < 256) (hbv : ∀ b ∈ v, b < 256) :
    (putObject db k v false).2 = none ∧
    (closeDB (putObject db k v false).1 false false).2 = none ∧
    reopenGet (closeDB (putObject db k v false).1 false false).1.disk k = .ok v := by
  obtain ⟨es, hrep, hwf, hload⟩ := hcons
  have hwfe : WFEntry ⟨putTok, k, v⟩ := ⟨.inl rfl, hbk, hbv⟩
  have hput : putObject db k v false =
      (({ db with
          data := upsert k v db.data,
          buffer := db.buffer ++ (Entry.mk putTok k v).toBytes } : DB), none) := by
    simp [putObject, hopen, hk, appendEntry]
  have hclose : closeDB (putObject db k v false).1 false false =
      (({ closed := true, data := [],
          disk := db.disk ++ (db.buffer ++ (Entry.mk putTok k v).toBytes),
          buffer := [], bak := db.bak } : DB), none) := by
    rw [hput]
    simp [closeDB, hopen]
  refine ⟨by rw [hput], by rw [hclose], ?_⟩
  rw [hclose]
  have hrep2 : db.disk ++ (db.buffer ++ (Entry.mk putTok k v).toBytes) =
      (es ++ [Entry.mk putTok k v]).flatMap Entry.toBytes := by
    rw [← List.append_assoc, hrep]
    simp
  have hwf2 : ∀ e ∈ es ++ [Entry.mk putTok k v], WFEntry e := by
    intro e he
    rcases List.mem_append.mp he with he | he
    · exact hwf e he
    · simp only [List.mem_singleton] at he
      subst he
      exact hwfe
  have hload2 : loadLines [] ((es ++ [Entry.mk putTok k v]).map Entry.toLine) =
      .ok (upsert k v db.data) := by
    rw [List.map_append, loadLines_append]
    simp only [hload, List.map_cons, List.map_nil]
    rw [loadLines_toLine_cons hwfe]
    simp [loadLines, applyEntry]
  unfold reopenGet
  rw [openDB_of_flatMap hrep2 hwf2 hload2]
  simp [getObject, shrink, lookupKey_upsert]

/-- Witness for C2: on the freshly created empty store, put key [107] with
value [0, 255], close, reopen, get. -/
theorem c2_durability_witness :
    (putObject ⟨false, [], [], [], none⟩ [107] [0, 255] false).2 = none ∧
    (closeDB (putObject ⟨false, [], [], [], none⟩ [107] [0, 255] false).1 false false).2 =
      none ∧
    reopenGet (closeDB (putObject ⟨false, [], [], [], none⟩ [107] [0, 255] false).1
      false false).1.disk [107] = .ok [0, 255] :=
  c2_durability ⟨false, [], [], [], none⟩ [107] [0, 255]
    ⟨[], rfl, by simp, rfl⟩ rfl rfl (by decide) (by decide)

/-- C8: Clear empties only the in-memory map — afterwards Size is 0 while
disk content and writer buffer are untouched — and closing then reopening
the same path restores the previously persisted key/value pairs. -/
theorem c8_clear_memory_only (db : DB) (hcons : Consistent db) (h : db.closed = false) :
    sizeOp (clearOp db) = 0 ∧
    (clearOp db).disk = db.disk ∧
    (clearOp db).buffer = db.buffer ∧
    (closeDB (clearOp db) false false).2 = none ∧
    reopenData (closeDB (clearOp db) false false).1.disk = .ok db.data := by
  obtain ⟨es, hrep, hwf, hload⟩ := hcons
  have hclose : closeDB (clearOp db) false false =
      (({ closed := true, data := [], disk := db.disk ++ db.buffer, buffer := [],
          bak := db.bak } : DB), none) := by
    simp [closeDB, clearOp, h]
  refine ⟨rfl, rfl, rfl, by rw [hclose], ?_⟩
  rw [hclose]
  unfold reopenData
  simp only [openDB_of_flatMap hrep hwf hload]
  rfl

/-- Witness for C8 on a store holding one key whose log mirrors it. -/
theorem c8_clear_memory_only_witness :
    sizeOp (clearOp ⟨false, [([107], [5])], [],
      Entry.toBytes ⟨putTok, [107], [5]⟩, none⟩) = 0 ∧
    (clearOp ⟨false, [([107], [5])], [], Entry.toBytes ⟨putTok, [107], [5]⟩, none⟩).disk =
      (⟨false, [([107], [5])], [], Entry.toBytes ⟨putTok, [107], [5]⟩, none⟩ : DB).disk ∧
    (clearOp ⟨false, [([107], [5])], [], Entry.toBytes ⟨putTok, [107], [5]⟩, none⟩).buffer =
      (⟨false, [([107], [5])], [], Entry.toBytes ⟨putTok, [107], [5]⟩, none⟩ : DB).buffer ∧
    (closeDB (clearOp ⟨false, [([107], [5])], [],
      Entry.toBytes ⟨putTok, [107], [5]⟩, none⟩) false false).2 = none ∧
    reopenData (closeDB (clearOp ⟨false, [([107], [5])], [],
      Entry.toBytes ⟨putTok, [107], [5]⟩, none⟩) false false).1.disk = .ok [([107], [5])] :=
  c8_clear_memory_only ⟨false, [([107], [5])], [], Entry.toBytes ⟨putTok, [107], [5]⟩, none⟩
    ⟨[⟨putTok, [107], [5]⟩], by simp, by decide, rfl⟩ rfl

/-- The minimal-log property of C6: the bytes of the log (disk plus pending
buffer) decode to exactly one Put entry per live key in map order, all
entries are Puts, their keys are pairwise distinct, and replaying the log
through the load loop reconstructs exactly the in-memory map. -/
def MinimalLog (db : DB) : Prop :=
  parseLog (db.disk ++ db.buffer) =
      .ok (db.data.map (fun kv => Entry.mk putTok kv.1 kv.2)) ∧
  (∀ e ∈ db.data.map (fun kv => Entry.mk putTok kv.1 kv.2), e.action = putTok) ∧
  ((db.data.map (fun kv => Entry.mk putTok kv.1 kv.2)).map Entry.key).Nodup ∧
  loadLines [] (splitLines (db.disk ++ db.buffer)) = .ok db.data

/-- C6: every store that Open returns successfully on an existing log file
has been compacted: its log is minimal in the sense of MinimalLog. -/
theorem c6_open_compacts {content : List Nat} {db : DB}
    (h : openDB (some content) = .ok db) : MinimalLog db := by
  obtain ⟨data, hload, hdb⟩ := openDB_some h
  have hWF : WFMap data := loadLines_WF _ _ hload WFMap_nil
  have hwfE : ∀ e ∈ data.map (fun kv => Entry.mk putTok kv.1 kv.2), WFEntry e := by
    intro e he
    simp only [List.mem_map] at he
    obtain ⟨kv, hkv, hekv⟩ := he
    subst hekv
    exact ⟨.inl rfl, (hWF.1 kv hkv).1, (hWF.1 kv hkv).2⟩
  subst hdb
  unfold MinimalLog shrink
  refine ⟨?_, ?_, ?_, ?_⟩
  · dsimp only
    rw [List.nil_append]
    exact parseLog_flatMap hwfE
  · intro e he
    simp only [List.mem_map] at he
    obtain ⟨kv, hkv, hekv⟩ := he
    subst hekv
    rfl
  · dsimp only
    rw [List.map_map]
    exact hWF.2
  · dsimp only
    rw [List.nil_append, splitLines_flatMap hwfE, loadLines_map_toLine hwfE]
    have hrep := @replayEntries_puts data [] (fun kv _ => rfl) hWF.2
    rw [hrep, List.nil_append]

/-- Witness for C6: opening a file holding one Put line (key [107], value
[5]) yields a store whose log is minimal. -/
theorem c6_open_compacts_witness :
    MinimalLog ⟨false, [([107], [5])], [],
      [112, 117, 116, 44, 97, 119, 61, 61, 44, 66, 81, 61, 61, 10],
      some [112, 117, 116, 44, 97, 119, 61, 61, 44, 66, 81, 61, 61, 10]⟩ :=
  @c6_open_compacts [112, 117, 116, 44, 97, 119, 61, 61, 44, 66, 81, 61, 61, 10]
    ⟨false, [([107], [5])], [],
      [112, 117, 116, 44, 97, 119, 61, 61, 44, 66, 81, 61, 61, 10],
      some [112, 117, 116, 44, 97, 119, 61, 61, 44, 66, 81, 61, 61, 10]⟩ rfl

end InMemoryDB
